import Mathlib

/-!
Verification development for the spider-next crawler.

The definitions below are a shallow embedding of the repository's code:
`src/spider/db.js` (SQLite persistence layer) and the worker-thread version of
`src/spider/index.js` (fetchPage, the bounded-concurrency crawl loop, the
message handler with its resume logic).  SQLite tables are modelled as lists of
rows, JavaScript `Set`s as duplicate-free lists, and the platform libraries
(fetch, cheerio, the WHATWG URL parser) as oracles supplied in an environment
record.  The worker's imports `getDiscoveredUrls` / `saveIncomingLink` are the
functions exported by `db.js` as `getAllDestinationUrls` / `saveOutgoingLink`
(the queries on the `outgoing_links` table).
-/

/-- One row of the `pages` table (`db.js`, `initSiteDb` schema): unique `url`,
nullable title/description, classification tag, HTTP status or sentinel, and
response time.  `scannedAt` is not modelled (no claim mentions it). -/
structure PageRow where
  id : Nat
  url : String
  metaTitle : Option String
  metaDescription : Option String
  contentType : String
  responseStatus : Int
  responseTime : Int
deriving Repr, DecidableEq

/-- One row of the `headers` table.  The source stores the tag name `h${i}`;
we represent that tag by its level `i`. -/
structure HeaderRow where
  pageId : Nat
  level : Nat
  value : String
deriving Repr, DecidableEq

/-- One row of the `outgoing_links` table, unique per (pageId, destinationUrl). -/
structure OutgoingLinkRow where
  pageId : Nat
  destinationUrl : String
deriving Repr, DecidableEq

/-- A per-domain site database: the three tables plus the AUTOINCREMENT counter. -/
structure SiteDb where
  pages : List PageRow
  headers : List HeaderRow
  outgoingLinks : List OutgoingLinkRow
  nextId : Nat
deriving Repr, DecidableEq

def emptySiteDb : SiteDb :=
  { pages := [], headers := [], outgoingLinks := [], nextId := 1 }

/-- `savePageData` from `db.js`: `INSERT OR IGNORE INTO pages ...`; when the
insert is ignored (the url already exists) the existing row's id is returned,
otherwise the fresh rowid. -/
def savePageData (db : SiteDb) (url : String) (metaTitle metaDescription : Option String)
    (contentType : String) (responseStatus responseTime : Int) : SiteDb × Nat :=
  match db.pages.find? (fun p => p.url == url) with
  | some p => (db, p.id)
  | none =>
      ({ db with
          pages := db.pages ++
            [{ id := db.nextId, url := url, metaTitle := metaTitle,
               metaDescription := metaDescription, contentType := contentType,
               responseStatus := responseStatus, responseTime := responseTime }],
          nextId := db.nextId + 1 },
       db.nextId)

/-- `saveHeader` from `db.js`: plain `INSERT INTO headers ...`. -/
def saveHeader (db : SiteDb) (pageId : Nat) (level : Nat) (value : String) : SiteDb :=
  { db with headers := db.headers ++ [{ pageId := pageId, level := level, value := value }] }

/-- `saveOutgoingLink` from `db.js`: `INSERT OR IGNORE INTO outgoing_links ...`
over the UNIQUE(pageId, destinationUrl) key. -/
def saveOutgoingLink (db : SiteDb) (pageId : Nat) (destinationUrl : String) : SiteDb :=
  if db.outgoingLinks.any (fun l => l.pageId == pageId && l.destinationUrl == destinationUrl) then
    db
  else
    { db with outgoingLinks := db.outgoingLinks ++ [{ pageId := pageId, destinationUrl := destinationUrl }] }

/-- `getScannedUrls` from `db.js`: `SELECT url FROM pages`; the empty list when
the database file does not exist (modelled as `none`). -/
def getScannedUrls (dbFile : Option SiteDb) : List String :=
  match dbFile with
  | none => []
  | some db => db.pages.map (·.url)

/-- `getAllDestinationUrls` from `db.js` (imported by the worker as
`getDiscoveredUrls`): `SELECT DISTINCT destinationUrl FROM outgoing_links`. -/
def getAllDestinationUrls (dbFile : Option SiteDb) : List String :=
  match dbFile with
  | none => []
  | some db => (db.outgoingLinks.map (·.destinationUrl)).eraseDups

/-- The sort-key allow-list of `getAllPagesData`. -/
def allowedSortKeys : List String :=
  ["url", "metaTitle", "metaDescription", "responseStatus", "responseTime"]

/-- SQLite text comparison with NULLs first, used for the nullable text columns. -/
def nullsFirstLe (a b : Option String) : Bool :=
  match a, b with
  | none, _ => true
  | some _, none => false
  | some x, some y => x ≤ y

/-- Row comparison realizing `ORDER BY ${safeSortKey} ASC` for one allow-listed key. -/
def pageLe (key : String) (a b : PageRow) : Bool :=
  if key == "responseStatus" then decide (a.responseStatus ≤ b.responseStatus)
  else if key == "responseTime" then decide (a.responseTime ≤ b.responseTime)
  else if key == "metaTitle" then nullsFirstLe a.metaTitle b.metaTitle
  else if key == "metaDescription" then nullsFirstLe a.metaDescription b.metaDescription
  else a.url ≤ b.url

/-- Insert a row into a sorted list (auxiliary to `sortPages`). -/
def insertSorted (le : PageRow → PageRow → Bool) (a : PageRow) : List PageRow → List PageRow
  | [] => [a]
  | b :: t => if le a b then a :: b :: t else b :: insertSorted le a t

/-- Sorting of the page rows by the comparison the SQL `ORDER BY` clause
denotes (insertion sort; SQLite guarantees only the ordering). -/
def sortPages (le : PageRow → PageRow → Bool) : List PageRow → List PageRow
  | [] => []
  | a :: t => insertSorted le a (sortPages le t)

/-- The query options of the `GET api/data/[dbName]` route.  The route reads all
six parameters and passes them to `getAllPages`; `getAllPagesData` in `db.js`
destructures only `limit`, `page`, `sortKey` and `sortDirection`. -/
structure QueryOptions where
  limit : Nat
  page : Nat
  sortKey : String
  sortDirection : String
  searchQuery : String
  contentType : String
deriving Repr, DecidableEq

/-- One element of the `pages` array returned by `getAllPagesData`: the row
with its headers, de-duplicated outgoing links and derived incoming links. -/
structure PageView where
  row : PageRow
  headers : List (Nat × String)
  outgoingLinks : List String
  incomingLinks : List String
deriving Repr, DecidableEq

/-- The `{ pages, total }` result of `getAllPagesData`. -/
structure PagesResult where
  pages : List PageView
  total : Nat
deriving Repr, DecidableEq

/-- `getAllPagesData` from `db.js`: returns `{ pages: [], total: 0 }` when the
store file is missing; otherwise validates the sort key against the allow-list,
counts all rows, sorts (`ORDER BY safeSortKey safeSortDirection`), applies
`LIMIT ? OFFSET ?` with `offset = (page - 1) * limit`, and enriches each
returned row with its headers, outgoing links and incoming links.  The
`searchQuery` and `contentType` options passed by the API route do not occur
in its body. -/
def getAllPagesData (dbFile : Option SiteDb) (opts : QueryOptions) : PagesResult :=
  match dbFile with
  | none => { pages := [], total := 0 }
  | some db =>
      let safeSortKey := if allowedSortKeys.contains opts.sortKey then opts.sortKey else "url"
      let descending := opts.sortDirection == "descending"
      let offset := (opts.page - 1) * opts.limit
      let total := db.pages.length
      let sorted := sortPages
        (fun a b => if descending then pageLe safeSortKey b a else pageLe safeSortKey a b)
        db.pages
      let rows := (sorted.drop offset).take opts.limit
      let views := rows.map (fun p =>
        { row := p,
          headers := (db.headers.filter (fun h => h.pageId == p.id)).map (fun h => (h.level, h.value)),
          outgoingLinks :=
            ((db.outgoingLinks.filter (fun l => l.pageId == p.id)).map (·.destinationUrl)).eraseDups,
          incomingLinks :=
            ((db.outgoingLinks.filter (fun l => l.destinationUrl == p.url)).filterMap
              (fun l => (db.pages.find? (fun q => q.id == l.pageId)).map (·.url))).eraseDups })
      { pages := views, total := total }

/-- Check that `pat` is a prefix of `s` (character lists). -/
def charsHavePrefix : List Char → List Char → Bool
  | _, [] => true
  | [], _ :: _ => false
  | a :: as, b :: bs => a == b && charsHavePrefix as bs

/-- Check that `pat` occurs as a contiguous substring of `s` (character lists),
modelling JavaScript's `String.prototype.includes`. -/
def charsHaveSubstr (pat : List Char) : List Char → Bool
  | [] => pat.isEmpty
  | c :: rest => charsHavePrefix (c :: rest) pat || charsHaveSubstr pat rest

/-- JavaScript `s.includes(pat)`. -/
def strIncludes (s pat : String) : Bool :=
  charsHaveSubstr pat.toList s.toList

/-- The outcome of one `fetch` call as seen by `fetchPage`: either a response
(status, `response.ok`, the content-type header, the body text, and
`response.url` after redirects) or a network-level error carrying the
Node.js error code. -/
inductive FetchOutcome where
  | response (status : Int) (ok : Bool) (contentTypeHeader : Option String)
      (body : String) (finalUrl : String)
  | netError (code : String)
deriving Repr, DecidableEq

/-- The `{ html, responseStatus, responseTime, finalUrl }` record returned by
`fetchPage`. -/
structure FetchResult where
  html : Option String
  responseStatus : Int
  responseTime : Int
  finalUrl : String
deriving Repr, DecidableEq

/-- `fetchPage` from the worker `src/spider/index.js`: the body is kept only
when `response.ok` and the content-type header includes `text/html`; a thrown
network error is caught and mapped to a sentinel status (`ENOTFOUND` to 0,
`ECONNREFUSED` to -2, `ERR_INVALID_URL` to -3, anything else to -1) with the
elapsed time still measured.  The function is total: no outcome escapes it. -/
def fetchPage (url : String) (outcome : FetchOutcome) (elapsed : Int) : FetchResult :=
  match outcome with
  | .response status ok ctHeader body finalUrl =>
      { html :=
          if ok && (match ctHeader with
                    | some ct => strIncludes ct "text/html"
                    | none => false)
          then some body else none,
        responseStatus := status,
        responseTime := elapsed,
        finalUrl := finalUrl }
  | .netError code =>
      { html := none,
        responseStatus :=
          if code == "ENOTFOUND" then 0
          else if code == "ECONNREFUSED" then -2
          else if code == "ERR_INVALID_URL" then -3
          else -1,
        responseTime := elapsed,
        finalUrl := url }

/-- Oracle for the WHATWG `URL` platform library: `hostname url` is
`new URL(url).hostname` (`none` when the constructor throws), and
`resolve href base` is `new URL(href, base).href` (`none` when it throws). -/
structure UrlLib where
  hostname : String → Option String
  resolve : String → String → Option String

/-- Oracle for `cheerio.load`: the pieces of a parsed document that the crawler
reads.  `headings` lists every `h1`..`h6` element in document order as a
(level, raw text) pair; `anchors` lists the `href` attribute of every `a`
element in document order (`none` when the attribute is absent). -/
structure HtmlDoc where
  titleText : String
  ogTitle : Option String
  descriptionMeta : Option String
  ogDescription : Option String
  headings : List (Nat × String)
  anchors : List (Option String)

/-- JavaScript truthiness of an optional string: `undefined`/`null` and the
empty string are falsy. -/
def truthyStr (o : Option String) : Option String :=
  match o with
  | some s => if s == "" then none else some s
  | none => none

/-- JavaScript `a || b || null` where `a` is a string and `b` is an optional
attribute value. -/
def jsOrStr (a : String) (b : Option String) : Option String :=
  if a == "" then truthyStr b else some a

/-- The worker's meta-title extraction:
`$('title').text() || $('meta[property="og:title"]').attr('content') || null`. -/
def extractTitle (doc : HtmlDoc) : Option String :=
  jsOrStr doc.titleText doc.ogTitle

/-- The worker's meta-description extraction:
`$('meta[name="description"]').attr('content') || $('meta[property="og:description"]').attr('content') || null`. -/
def extractDescription (doc : HtmlDoc) : Option String :=
  match truthyStr doc.descriptionMeta with
  | some s => some s
  | none => truthyStr doc.ogDescription

/-- Whitespace trimming of a character list from both ends, modelling
JavaScript's `String.prototype.trim`. -/
def trimChars (l : List Char) : List Char :=
  ((l.dropWhile Char.isWhitespace).reverse.dropWhile Char.isWhitespace).reverse

/-- JavaScript `s.trim()`. -/
def jsTrim (s : String) : String := ⟨trimChars s.data⟩

/-- The headings collected for one level `i`: the worker's
`$(`h${i}`).each(...)` callback keeps the trimmed text of every level-`i`
heading whose trimmed text is non-empty, in document order. -/
def headingBlock (hs : List (Nat × String)) (i : Nat) : List (Nat × String) :=
  hs.filterMap (fun p =>
    if p.1 == i then
      if jsTrim p.2 == "" then none else some (i, jsTrim p.2)
    else none)

/-- The worker's heading extraction loop `for (let i = 1; i <= 6; i++)`,
accumulating the `headers` array level by level. -/
def extractHeaders (hs : List (Nat × String)) : List (Nat × String) :=
  (List.range 6).foldl (fun acc j => acc ++ headingBlock hs (j + 1)) []

/-- The heading list described by the specification: every `h1`..`h6` element
in document order, trimmed text only, empty-text headings dropped. -/
def extractHeadingsSpec (hs : List (Nat × String)) : List (Nat × String) :=
  hs.filterMap (fun p =>
    if 1 ≤ p.1 ∧ p.1 ≤ 6 then
      if jsTrim p.2 == "" then none else some (p.1, jsTrim p.2)
    else none)

/-- The environment a crawl session runs in: the URL library, the robots.txt
verdict (`none` models an unassigned `robotsParser`), the network and parser
oracles, and the configured concurrency. -/
structure CrawlEnv where
  urls : UrlLib
  robots : Option (String → Bool)
  fetch : String → FetchOutcome
  elapsed : String → Int
  parse : String → HtmlDoc
  maxConcurrency : Nat

/-- The worker's mutable crawl state: `crawledUrls` (a `Set`), the FIFO queue
`urlsToCrawl`, the `activeCrawlers` counter, the site database, and the
progress counters.  `inFlight` records which dispatched URLs have not yet
completed (in the source this is implicit in the pending async tasks) and
`fetched` is a ghost log of every URL actually passed to `fetchPage`. -/
structure CrawlState where
  crawledUrls : List String
  urlsToCrawl : List String
  activeCrawlers : Nat
  inFlight : List String
  db : SiteDb
  fetched : List String
  totalUrlsFound : Nat
  processedUrlsCount : Nat

/-- The absolute URL produced from one `a` element:
`$(element).attr('href')` must be present and truthy, and
`new URL(href, finalUrl)` must not throw. -/
def anchorTarget (env : CrawlEnv) (base : String) (hrefAttr : Option String) : Option String :=
  match hrefAttr with
  | some href => if href == "" then none else env.urls.resolve href base
  | none => none

/-- Enqueue a discovered link: the worker pushes `absoluteUrl` (and adds it to
`crawledUrls`) only when it is in neither `crawledUrls` nor `urlsToCrawl`. -/
def discover (v : String) (s : CrawlState) : CrawlState :=
  if v ∈ s.crawledUrls ∨ v ∈ s.urlsToCrawl then s
  else { s with crawledUrls := v :: s.crawledUrls,
                urlsToCrawl := s.urlsToCrawl ++ [v],
                totalUrlsFound := s.totalUrlsFound + 1 }

/-- Processing of one `a` element of a fetched page (the `$('a').each`
callback): resolve the href against the final URL; if the absolute URL's
hostname equals the hostname `dom` of the URL being processed, save an
outgoing link for it and possibly enqueue it; resolution failures are
silently skipped. -/
def processAnchor (env : CrawlEnv) (dom base : String) (pid : Nat)
    (s : CrawlState) (hrefAttr : Option String) : CrawlState :=
  match anchorTarget env base hrefAttr with
  | some abs =>
      match env.urls.hostname abs with
      | some h =>
          if h = dom then discover abs { s with db := saveOutgoingLink s.db pid abs }
          else s
      | none => s
  | none => s

/-- The worker's redirect handling: when the fetch of `u` ended on a different
final URL that is not yet in `crawledUrls`, mark it crawled and enqueue it. -/
def recordRedirect (env : CrawlEnv) (u : String) (s : CrawlState) : CrawlState :=
  let f := fetchPage u (env.fetch u) (env.elapsed u)
  if f.finalUrl ≠ u ∧ f.finalUrl ∉ s.crawledUrls then
    { s with crawledUrls := f.finalUrl :: s.crawledUrls,
             urlsToCrawl := s.urlsToCrawl ++ [f.finalUrl],
             totalUrlsFound := s.totalUrlsFound + 1 }
  else s

/-- Persistence of a fetched HTML page: save the page row for the final URL
(title and description extracted from the document), save its extracted
headings, then process every `a` element of the document. -/
def persistHtml (env : CrawlEnv) (dom u html : String) (s : CrawlState) : CrawlState :=
  let f := fetchPage u (env.fetch u) (env.elapsed u)
  let doc := env.parse html
  let saved := savePageData s.db f.finalUrl (extractTitle doc) (extractDescription doc)
    "HTML_PAGE" f.responseStatus f.responseTime
  let s3 := { s with db :=
    (extractHeaders doc.headings).foldl (fun db h => saveHeader db saved.2 h.1 h.2) saved.1 }
  doc.anchors.foldl (processAnchor env dom f.finalUrl saved.2) s3

/-- The body of the worker's per-URL task after the robots.txt gate: fetch the
page, enqueue the redirect target if it is new, then either persist the parsed
HTML page or record a `NON_HTML_OR_ERROR` row for the final URL. -/
def processFetched (env : CrawlEnv) (dom u : String) (s : CrawlState) : CrawlState :=
  let f := fetchPage u (env.fetch u) (env.elapsed u)
  let s1 := { s with fetched := s.fetched ++ [u] }
  let s2 := recordRedirect env u s1
  match f.html with
  | some html => persistHtml env dom u html s2
  | none =>
      { s2 with db :=
          (savePageData s2.db f.finalUrl none none "NON_HTML_OR_ERROR"
            f.responseStatus f.responseTime).1 }

/-- The worker's per-URL task (the async IIFE in `crawl`): parse the URL's
hostname (a parse failure is the unexpected-exception path, recorded as
`INTERNAL_ERROR` with sentinels -1); check robots.txt and record a
`DISALLOWED` row with status 0 without fetching when the URL is blocked;
otherwise fetch and process the page. -/
def processUrl (env : CrawlEnv) (u : String) (s : CrawlState) : CrawlState :=
  match env.urls.hostname u with
  | none =>
      { s with db := (savePageData s.db u none none "INTERNAL_ERROR" (-1) (-1)).1 }
  | some dom =>
      match env.robots with
      | some allow =>
          if allow u then processFetched env dom u s
          else
            { s with db :=
                (savePageData s.db u (some "Disallowed by robots.txt") none "DISALLOWED" 0 0).1 }
      | none => processFetched env dom u s

/-- Dispatching the queue head `u`: `urlsToCrawl.shift()`, `crawledUrls.add`,
`activeCrawlers++`, `processedUrlsCount++`, and the asynchronous task for `u`
becomes in-flight. -/
def dispatchState (s : CrawlState) (u : String) (rest : List String) : CrawlState :=
  { s with urlsToCrawl := rest,
           crawledUrls := if u ∈ s.crawledUrls then s.crawledUrls else u :: s.crawledUrls,
           activeCrawlers := s.activeCrawlers + 1,
           inFlight := u :: s.inFlight,
           processedUrlsCount := s.processedUrlsCount + 1 }

/-- Completion of the in-flight task for `u`: the task body runs, then the
`finally` block decrements `activeCrawlers`. -/
def completeState (env : CrawlEnv) (u : String) (s : CrawlState) : CrawlState :=
  let s1 := processUrl env u { s with inFlight := s.inFlight.erase u }
  { s1 with activeCrawlers := s1.activeCrawlers - 1 }

/-- One scheduling step of the crawl loop `while (urlsToCrawl.length > 0 ||
activeCrawlers > 0)`: either a dispatch (possible while a slot is free and the
queue is non-empty) or the completion of some in-flight fetch task. -/
inductive Step (env : CrawlEnv) : CrawlState → CrawlState → Prop
  | dispatch (s : CrawlState) (u : String) (rest : List String) :
      s.urlsToCrawl = u :: rest → s.activeCrawlers < env.maxConcurrency →
      Step env s (dispatchState s u rest)
  | complete (s : CrawlState) (u : String) :
      u ∈ s.inFlight → Step env s (completeState env u s)

/-- States reachable by the crawl loop. -/
def Reachable (env : CrawlEnv) : CrawlState → CrawlState → Prop :=
  Relation.ReflTransGen (Step env)

/-- The worker state right after the reset performed on a `start` message. -/
def initialCrawlState : CrawlState :=
  { crawledUrls := [], urlsToCrawl := [], activeCrawlers := 0, inFlight := [],
    db := emptySiteDb, fetched := [], totalUrlsFound := 0, processedUrlsCount := 0 }

/-- The worker's resume logic for a non-overwrite `start`: load the previously
scanned URLs into `crawledUrls`, push every distinct destination URL that is
not already queued onto `urlsToCrawl`, and set the progress counters. -/
def resumeInit (prior : Option SiteDb) (s : CrawlState) : CrawlState :=
  let s1 := { s with crawledUrls :=
    (getScannedUrls prior).foldl (fun c url => if url ∈ c then c else url :: c) s.crawledUrls }
  let s2 := { s1 with urlsToCrawl :=
    (getAllDestinationUrls prior).foldl (fun q url => if url ∈ q then q else q ++ [url]) s1.urlsToCrawl }
  { s2 with totalUrlsFound := s2.crawledUrls.length + s2.urlsToCrawl.length,
            processedUrlsCount := s2.crawledUrls.length,
            db := match prior with | some d => d | none => emptySiteDb }

/-- The worker's fallback seeding: when the queue is still empty after the
resume reconstruction, start from the base URL unless it was already crawled. -/
def seedFallback (baseUrl : String) (s : CrawlState) : CrawlState :=
  if s.urlsToCrawl.isEmpty then
    if baseUrl ∈ s.crawledUrls then s
    else { s with crawledUrls := baseUrl :: s.crawledUrls,
                  urlsToCrawl := [baseUrl],
                  totalUrlsFound := s.crawledUrls.length + 1 }
  else s

/-- The default `maxConcurrency` of the worker module. -/
def defaultMaxConcurrency : Nat := 5

/-- The concurrency bound selected by the `start` handler:
`if (concurrency && concurrency > 0) maxConcurrency = concurrency` — a message
without a positive concurrency value (absent, zero, i.e. falsy, or negative)
leaves the previous bound in place. -/
def startMaxConcurrency (prev : Nat) (concurrency : Option Int) : Nat :=
  match concurrency with
  | some c => if c ≠ 0 ∧ 0 < c then c.toNat else prev
  | none => prev

/-- A minimal concrete environment: every fetch is a 404 with no body and no
redirect, every document is empty, hostnames are the prefix before the first
slash, and hrefs resolve to themselves. -/
def idleEnv : CrawlEnv :=
  { urls :=
      { hostname := fun s => some ⟨s.data.takeWhile (fun c => c ≠ '/')⟩,
        resolve := fun href _ => some href },
    robots := none,
    fetch := fun u => FetchOutcome.response 404 false none "" u,
    elapsed := fun _ => 0,
    parse := fun _ =>
      { titleText := "", ogTitle := none, descriptionMeta := none,
        ogDescription := none, headings := [], anchors := [] },
    maxConcurrency := 5 }

/-- A prior session's store for C1: page `https://x.test/a` was scanned
(P = {a}), and links to both `https://x.test/a` and `https://x.test/b` were
discovered (D = {a, b}). -/
def ex1db : SiteDb :=
  { pages := [{ id := 1, url := "https://x.test/a", metaTitle := some "A",
                metaDescription := none, contentType := "HTML_PAGE",
                responseStatus := 200, responseTime := 10 }],
    headers := [],
    outgoingLinks := [{ pageId := 1, destinationUrl := "https://x.test/a" },
                      { pageId := 1, destinationUrl := "https://x.test/b" }],
    nextId := 2 }

/-- The state of the resumed session after the worker's resume reconstruction. -/
def ex1start : CrawlState := resumeInit (some ex1db) initialCrawlState

/-- Row `i` of the C8 store: every fifth page is an HTML page, response times
are scattered by `(i * 7) % 50`. -/
def ex8row (i : Nat) : PageRow :=
  { id := i + 1, url := "https://s.test/p" ++ toString i, metaTitle := none,
    metaDescription := none,
    contentType := if i % 5 == 0 then "HTML_PAGE" else "NON_HTML_OR_ERROR",
    responseStatus := 200, responseTime := Int.ofNat ((i * 7) % 50) }

/-- A 50-page domain store of which exactly 10 pages are `HTML_PAGE`. -/
def ex8db : SiteDb :=
  { pages := (List.range 50).map ex8row, headers := [], outgoingLinks := [], nextId := 51 }

/-- The query of the claim: `sortKey=responseTime&sortDirection=descending&contentType=HTML_PAGE`. -/
def ex8opts : QueryOptions :=
  { limit := 100, page := 1, sortKey := "responseTime", sortDirection := "descending",
    searchQuery := "", contentType := "HTML_PAGE" }

/-- The URLs that processing `u` can ever push onto the queue: the final URL of
its fetch and, when HTML came back, the resolved href of every anchor of the
parsed document. -/
def linkTargets (env : CrawlEnv) (u : String) : List String :=
  let f := fetchPage u (env.fetch u) (env.elapsed u)
  f.finalUrl ::
    (match f.html with
     | some html => (env.parse html).anchors.filterMap (anchorTarget env f.finalUrl)
     | none => [])

/-- The crawled/queue part of the termination measure over a finite URL
universe `U`: crawling a new URL pays for its queue entry twice over. -/
def queueCrawlMeasure (U : Finset String) (s : CrawlState) : Nat :=
  2 * (U.card - (U.filter (fun v => v ∈ s.crawledUrls)).card) +
  2 * s.urlsToCrawl.length

/-- The full termination measure: queue/crawled part plus in-flight tasks. -/
def frontierMeasure (U : Finset String) (s : CrawlState) : Nat :=
  queueCrawlMeasure U s + s.activeCrawlers

/-- The crawl-loop invariant for termination over a finite URL universe `U`:
every queued and every in-flight URL lies in `U`, and `activeCrawlers` counts
exactly the in-flight tasks. -/
def GoodState (U : Finset String) (s : CrawlState) : Prop :=
  (∀ v ∈ s.urlsToCrawl, v ∈ U) ∧ (∀ v ∈ s.inFlight, v ∈ U) ∧
  s.activeCrawlers = s.inFlight.length

/-- The robots policy of the C4 example: everything except `A/x` is allowed. -/
def ex4allow : String → Bool := fun v => v != "A/x"

/-- Environment for C4: fetching `A/r` (allowed) redirects to the disallowed
`A/x` and returns an HTML body; everything else is a plain 404. -/
def ex4env : CrawlEnv :=
  { idleEnv with
      robots := some ex4allow,
      fetch := fun v =>
        if v == "A/r" then FetchOutcome.response 200 true (some "text/html") "page" "A/x"
        else FetchOutcome.response 404 false none "" v,
      elapsed := fun _ => 7 }

/-- The queue holding only the allowed URL `A/r`. -/
def ex4s0 : CrawlState := { initialCrawlState with urlsToCrawl := ["A/r"] }

/-- Hostname scoping of an entire crawl state: queued URLs, in-flight URLs and
every stored Page row share the hostname `D`. -/
def HostScoped (L : UrlLib) (D : String) (s : CrawlState) : Prop :=
  (∀ v ∈ s.urlsToCrawl, L.hostname v = some D) ∧
  (∀ v ∈ s.inFlight, L.hostname v = some D) ∧
  (∀ r ∈ s.db.pages, L.hostname r.url = some D)

/-- The queue holding only the seed-hostname URL `A/` under the
redirect-free `idleEnv`. -/
def ex5w0 : CrawlState := { initialCrawlState with urlsToCrawl := ["A/"] }

/-- Environment for C5's counterexample: fetching `A/r` redirects to the
foreign host `B/` and returns an HTML body. -/
def ex5env : CrawlEnv :=
  { idleEnv with
      robots := some (fun _ => true),
      fetch := fun v =>
        if v == "A/r" then FetchOutcome.response 200 true (some "text/html") "page" "B/"
        else FetchOutcome.response 404 false none "" v }

/-- The queue holding only the seed-hostname URL `A/r`. -/
def ex5s0 : CrawlState := { initialCrawlState with urlsToCrawl := ["A/r"] }

/-- C10: when the per-domain store file does not exist, `getAllPagesData`
returns `{ pages: [], total: 0 }` for every pagination/sort option value
instead of raising an error. -/
theorem getAllPages_missing_store (opts : QueryOptions) :
    getAllPagesData none opts = { pages := [], total := 0 } := rfl

/-- C6: a transport-level fetch failure is absorbed by `fetchPage` (the result
is an ordinary record, nothing is re-thrown): DNS failure (`ENOTFOUND`) maps to
sentinel 0, connection refused (`ECONNREFUSED`) to -2, a malformed URL
(`ERR_INVALID_URL`) to -3 and every other network error to -1, the measured
elapsed time is still recorded, no body is returned, and the requested URL is
reported back unchanged. -/
theorem fetchPage_transport_failure (url code : String) (elapsed : Int) :
    (fetchPage url (FetchOutcome.netError code) elapsed).responseStatus =
      (if code = "ENOTFOUND" then 0
       else if code = "ECONNREFUSED" then -2
       else if code = "ERR_INVALID_URL" then -3
       else -1) ∧
    (fetchPage url (FetchOutcome.netError code) elapsed).responseTime = elapsed ∧
    (fetchPage url (FetchOutcome.netError code) elapsed).html = none ∧
    (fetchPage url (FetchOutcome.netError code) elapsed).finalUrl = url := by
  refine ⟨?_, rfl, rfl, rfl⟩
  simp only [fetchPage, beq_iff_eq]

/-- Helper for C7: a `find?` hit on the pages of a database means the filtered
row count for that url is positive. -/
theorem filter_url_length_pos (l : List PageRow) (url : String) (r : PageRow)
    (h : l.find? (fun p => p.url == url) = some r) :
    0 < (l.filter (fun p => p.url == url)).length := by
  have hp : r ∈ l := List.mem_of_find?_eq_some h
  have hq : ((fun p : PageRow => p.url == url) r) = true :=
    List.find?_some (p := fun p : PageRow => p.url == url) h
  have hmem : r ∈ l.filter (fun p => p.url == url) := List.mem_filter.mpr ⟨hp, hq⟩
  exact List.length_pos.mpr (List.ne_nil_of_mem hmem)

/-- Helper for C7: a `find?` miss means no row with that url is in the table. -/
theorem filter_url_eq_nil (l : List PageRow) (url : String)
    (h : l.find? (fun p => p.url == url) = none) :
    l.filter (fun p => p.url == url) = [] := by
  rw [List.filter_eq_nil_iff]
  intro q hq
  exact List.find?_eq_none.mp h q hq

/-- C7: saving a page is idempotent per URL.  A second `savePageData` for the
same url, with arbitrary (possibly different) field values, leaves the store
unchanged (so no field of the previously stored row is overwritten) and
returns the same page id; and after the first save the store holds exactly
`max (previous count) 1` rows for that url, so saving the same URL twice,
within or across sessions, never produces two rows for it. -/
theorem savePageData_idempotent (db : SiteDb) (url : String)
    (t1 d1 : Option String) (ct1 : String) (rs1 rt1 : Int)
    (t2 d2 : Option String) (ct2 : String) (rs2 rt2 : Int) :
    (savePageData (savePageData db url t1 d1 ct1 rs1 rt1).1 url t2 d2 ct2 rs2 rt2).1 =
      (savePageData db url t1 d1 ct1 rs1 rt1).1 ∧
    (savePageData (savePageData db url t1 d1 ct1 rs1 rt1).1 url t2 d2 ct2 rs2 rt2).2 =
      (savePageData db url t1 d1 ct1 rs1 rt1).2 ∧
    ((savePageData db url t1 d1 ct1 rs1 rt1).1.pages.filter (fun p => p.url == url)).length =
      max (db.pages.filter (fun p => p.url == url)).length 1 := by
  cases hfind : db.pages.find? (fun p => p.url == url) with
  | some r =>
      have heq1 : savePageData db url t1 d1 ct1 rs1 rt1 = (db, r.id) := by
        simp only [savePageData, hfind]
      have heq2 : savePageData db url t2 d2 ct2 rs2 rt2 = (db, r.id) := by
        simp only [savePageData, hfind]
      have hpos := filter_url_length_pos db.pages url r hfind
      rw [heq1, heq2]
      exact ⟨rfl, rfl, (Nat.max_eq_left hpos).symm⟩
  | none =>
      have heq1 : savePageData db url t1 d1 ct1 rs1 rt1 =
          ({ pages := db.pages ++
               [{ id := db.nextId, url := url, metaTitle := t1, metaDescription := d1,
                  contentType := ct1, responseStatus := rs1, responseTime := rt1 }],
             headers := db.headers, outgoingLinks := db.outgoingLinks,
             nextId := db.nextId + 1 }, db.nextId) := by
        simp only [savePageData, hfind]
      have hfind2 : List.find? (fun p : PageRow => p.url == url)
          (db.pages ++
            [{ id := db.nextId, url := url, metaTitle := t1, metaDescription := d1,
               contentType := ct1, responseStatus := rs1, responseTime := rt1 }]) =
          some { id := db.nextId, url := url, metaTitle := t1, metaDescription := d1,
                 contentType := ct1, responseStatus := rs1, responseTime := rt1 } := by
        rw [List.find?_append, hfind]
        simp
      refine ⟨?_, ?_, ?_⟩
      · rw [heq1]
        simp only [savePageData, hfind2]
      · rw [heq1]
        simp only [savePageData, hfind2]
      · rw [heq1]
        simp only [List.filter_append, filter_url_eq_nil db.pages url hfind]
        simp

/-- Every entry of a heading block carries the block's level. -/
theorem headingBlock_level (hs : List (Nat × String)) (i : Nat) (p : Nat × String)
    (hp : p ∈ headingBlock hs i) : p.1 = i := by
  rcases List.mem_filterMap.mp hp with ⟨a, _, ha⟩
  split at ha
  · split at ha
    · exact absurd ha (by simp)
    · injection ha with h
      rw [← h]
  · exact absurd ha (by simp)

/-- A heading block is (trivially) sorted by level: all its levels are equal. -/
theorem headingBlock_pairwise (hs : List (Nat × String)) (i : Nat) :
    (headingBlock hs i).Pairwise (fun p q => p.1 ≤ q.1) := by
  induction hs with
  | nil => simp [headingBlock]
  | cons a t ih =>
      simp only [headingBlock, List.filterMap_cons] at *
      split
      · exact ih
      · next b heq =>
          have hb : b = (i, jsTrim a.2) := by
            split at heq
            · split at heq
              · exact absurd heq (by simp)
              · exact (Option.some.inj heq).symm
            · exact absurd heq (by simp)
          subst hb
          refine List.Pairwise.cons (fun c hc => ?_) ih
          rw [headingBlock_level t i c hc]

/-- Appending the next level's block preserves sortedness and the level bound. -/
theorem sorted_append_block (hs : List (Nat × String)) (l : List (Nat × String)) (k : Nat)
    (hl : l.Pairwise (fun p q => p.1 ≤ q.1)) (hb : ∀ p ∈ l, p.1 ≤ k) :
    (l ++ headingBlock hs k).Pairwise (fun p q => p.1 ≤ q.1) ∧
    ∀ p ∈ l ++ headingBlock hs k, p.1 ≤ k := by
  constructor
  · rw [List.pairwise_append]
    refine ⟨hl, headingBlock_pairwise hs k, ?_⟩
    intro a ha b hbmem
    rw [headingBlock_level hs k b hbmem]
    exact hb a ha
  · intro p hp
    rcases List.mem_append.mp hp with h | h
    · exact hb p h
    · exact le_of_eq (headingBlock_level hs k p h)

/-- `extractHeaders` concatenates the six level blocks in order. -/
theorem extractHeaders_eq_blocks (hs : List (Nat × String)) :
    extractHeaders hs =
      headingBlock hs 1 ++ headingBlock hs 2 ++ headingBlock hs 3 ++
      headingBlock hs 4 ++ headingBlock hs 5 ++ headingBlock hs 6 := rfl

/-- The output of `extractHeaders` is sorted by heading level. -/
theorem extractHeaders_pairwise (hs : List (Nat × String)) :
    (extractHeaders hs).Pairwise (fun p q => p.1 ≤ q.1) := by
  rw [extractHeaders_eq_blocks]
  have h1 := sorted_append_block hs (headingBlock hs 1) 2
    (headingBlock_pairwise hs 1)
    (fun p hp => by rw [headingBlock_level hs 1 p hp]; omega)
  have h2 := sorted_append_block hs _ 3 h1.1 (fun p hp => by have := h1.2 p hp; omega)
  have h3 := sorted_append_block hs _ 4 h2.1 (fun p hp => by have := h2.2 p hp; omega)
  have h4 := sorted_append_block hs _ 5 h3.1 (fun p hp => by have := h3.2 p hp; omega)
  have h5 := sorted_append_block hs _ 6 h4.1 (fun p hp => by have := h4.2 p hp; omega)
  exact h5.1

/-- Filtering a single block by level keeps it whole or erases it. -/
theorem block_filter (hs : List (Nat × String)) (k i : Nat) :
    (headingBlock hs k).filter (fun p => p.1 == i) =
      if k = i then headingBlock hs k else [] := by
  by_cases hk : k = i
  · subst hk
    rw [if_pos rfl, List.filter_eq_self]
    intro p hp
    simp [headingBlock_level hs k p hp]
  · rw [if_neg hk, List.filter_eq_nil_iff]
    intro p hp
    simp [headingBlock_level hs k p hp, hk]

/-- For a level in range, filtering `extractHeaders` by that level yields
exactly that level's block. -/
theorem extract_filter_eq (hs : List (Nat × String)) (i : Nat) (hlo : 1 ≤ i) (hhi : i ≤ 6) :
    (extractHeaders hs).filter (fun p => p.1 == i) = headingBlock hs i := by
  rw [extractHeaders_eq_blocks]
  simp only [List.filter_append, block_filter]
  interval_cases i <;> simp

/-- For a level in range, filtering the document-order specification extraction
by that level also yields exactly that level's block. -/
theorem spec_filter_eq (hs : List (Nat × String)) (i : Nat) (hlo : 1 ≤ i) (hhi : i ≤ 6) :
    (extractHeadingsSpec hs).filter (fun p => p.1 == i) = headingBlock hs i := by
  induction hs with
  | nil => rfl
  | cons a t ih =>
      by_cases hr : 1 ≤ a.1 ∧ a.1 ≤ 6
      · by_cases ht : jsTrim a.2 = ""
        · have h1 : extractHeadingsSpec (a :: t) = extractHeadingsSpec t := by
            simp [extractHeadingsSpec, List.filterMap_cons, hr, ht]
          have h2 : headingBlock (a :: t) i = headingBlock t i := by
            by_cases hai : a.1 = i
            · simp [headingBlock, List.filterMap_cons, hai, ht]
            · simp [headingBlock, List.filterMap_cons, hai]
          rw [h1, h2]
          exact ih
        · by_cases hai : a.1 = i
          · have h1 : extractHeadingsSpec (a :: t) =
                (a.1, jsTrim a.2) :: extractHeadingsSpec t := by
              simp [extractHeadingsSpec, List.filterMap_cons, hr, ht]
            have h2 : headingBlock (a :: t) i = (i, jsTrim a.2) :: headingBlock t i := by
              simp [headingBlock, List.filterMap_cons, hai, ht]
            rw [h1, h2, List.filter_cons_of_pos (by simp [hai]), ih, hai]
          · have h1 : extractHeadingsSpec (a :: t) =
                (a.1, jsTrim a.2) :: extractHeadingsSpec t := by
              simp [extractHeadingsSpec, List.filterMap_cons, hr, ht]
            have h2 : headingBlock (a :: t) i = headingBlock t i := by
              simp [headingBlock, List.filterMap_cons, hai]
            rw [h1, h2, List.filter_cons_of_neg (by simp [hai])]
            exact ih
      · have hai : ¬ a.1 = i := fun h => hr (by omega)
        have h1 : extractHeadingsSpec (a :: t) = extractHeadingsSpec t := by
          simp [extractHeadingsSpec, List.filterMap_cons, hr]
        have h2 : headingBlock (a :: t) i = headingBlock t i := by
          simp [headingBlock, List.filterMap_cons, hai]
        rw [h1, h2]
        exact ih

/-- C9 counterexample: for the document `<h2>B</h2><h1>A</h1>` the code returns
the headings grouped by level, `[h1 A, h2 B]`, not in document order
`[h2 B, h1 A]` as the claim states. -/
theorem extractHeaders_not_document_order :
    extractHeaders [(2, "B"), (1, "A")] = [(1, "A"), (2, "B")] ∧
    extractHeadingsSpec [(2, "B"), (1, "A")] = [(2, "B"), (1, "A")] ∧
    extractHeaders [(2, "B"), (1, "A")] ≠ extractHeadingsSpec [(2, "B"), (1, "A")] := by
  refine ⟨?_, ?_, ?_⟩ <;> decide

/-- C9 amended: extraction returns every `h1`..`h6` heading with trimmed text,
dropping empty-text headings, but grouped by level (all `h1`s first, then all
`h2`s, and so on) rather than in document order: the output is sorted by level,
and within each level `i + 1` for `i : Fin 6` it agrees exactly — same
headings, same trimming, same dropping, same relative order — with the
document-order extraction `extractHeadingsSpec`. -/
theorem extractHeaders_grouped (hs : List (Nat × String)) :
    (extractHeaders hs).Pairwise (fun p q => p.1 ≤ q.1) ∧
    ∀ i : Fin 6,
      (extractHeaders hs).filter (fun p => p.1 == i.val + 1) =
        (extractHeadingsSpec hs).filter (fun p => p.1 == i.val + 1) := by
  refine ⟨extractHeaders_pairwise hs, fun i => ?_⟩
  have hlo : 1 ≤ i.val + 1 := by omega
  have hhi : i.val + 1 ≤ 6 := by have := i.isLt; omega
  rw [extract_filter_eq hs (i.val + 1) hlo hhi, spec_filter_eq hs (i.val + 1) hlo hhi]

/-- `discover` never changes the active-crawler count or the in-flight set. -/
theorem discover_core (v : String) (s : CrawlState) :
    (discover v s).activeCrawlers = s.activeCrawlers ∧
    (discover v s).inFlight = s.inFlight := by
  unfold discover
  split <;> exact ⟨rfl, rfl⟩

/-- Anchor processing never changes the active-crawler count or the in-flight
set. -/
theorem processAnchor_core (env : CrawlEnv) (dom base : String) (pid : Nat)
    (s : CrawlState) (hrefAttr : Option String) :
    (processAnchor env dom base pid s hrefAttr).activeCrawlers = s.activeCrawlers ∧
    (processAnchor env dom base pid s hrefAttr).inFlight = s.inFlight := by
  unfold processAnchor
  split
  · split
    · split
      · exact discover_core _ _
      · exact ⟨rfl, rfl⟩
    · exact ⟨rfl, rfl⟩
  · exact ⟨rfl, rfl⟩

/-- Folding anchor processing over a list of `a` elements never changes the
active-crawler count or the in-flight set. -/
theorem foldAnchors_core (env : CrawlEnv) (dom base : String) (pid : Nat)
    (l : List (Option String)) (s : CrawlState) :
    (l.foldl (processAnchor env dom base pid) s).activeCrawlers = s.activeCrawlers ∧
    (l.foldl (processAnchor env dom base pid) s).inFlight = s.inFlight := by
  induction l generalizing s with
  | nil => exact ⟨rfl, rfl⟩
  | cons a t ih =>
      rw [List.foldl_cons]
      refine ⟨?_, ?_⟩
      · rw [(ih (processAnchor env dom base pid s a)).1, (processAnchor_core env dom base pid s a).1]
      · rw [(ih (processAnchor env dom base pid s a)).2, (processAnchor_core env dom base pid s a).2]

/-- Redirect handling never changes the active-crawler count or the in-flight
set. -/
theorem recordRedirect_core (env : CrawlEnv) (u : String) (s : CrawlState) :
    (recordRedirect env u s).activeCrawlers = s.activeCrawlers ∧
    (recordRedirect env u s).inFlight = s.inFlight := by
  simp only [recordRedirect]
  split <;> exact ⟨rfl, rfl⟩

/-- HTML persistence never changes the active-crawler count or the in-flight
set. -/
theorem persistHtml_core (env : CrawlEnv) (dom u html : String) (s : CrawlState) :
    (persistHtml env dom u html s).activeCrawlers = s.activeCrawlers ∧
    (persistHtml env dom u html s).inFlight = s.inFlight := by
  unfold persistHtml
  constructor
  · rw [(foldAnchors_core _ _ _ _ _ _).1]
  · rw [(foldAnchors_core _ _ _ _ _ _).2]

/-- The fetch-and-process body never changes the active-crawler count or the
in-flight set. -/
theorem processFetched_core (env : CrawlEnv) (dom u : String) (s : CrawlState) :
    (processFetched env dom u s).activeCrawlers = s.activeCrawlers ∧
    (processFetched env dom u s).inFlight = s.inFlight := by
  simp only [processFetched]
  split
  · constructor
    · exact ((persistHtml_core env dom u _ _).1.trans (recordRedirect_core env u _).1)
    · exact ((persistHtml_core env dom u _ _).2.trans (recordRedirect_core env u _).2)
  · constructor
    · exact (recordRedirect_core env u _).1
    · exact (recordRedirect_core env u _).2

/-- The per-URL task never changes the active-crawler count or the in-flight
set (the `finally` decrement happens outside it, in `completeState`). -/
theorem processUrl_core (env : CrawlEnv) (u : String) (s : CrawlState) :
    (processUrl env u s).activeCrawlers = s.activeCrawlers ∧
    (processUrl env u s).inFlight = s.inFlight := by
  unfold processUrl
  split
  · exact ⟨rfl, rfl⟩
  · split
    · split
      · exact processFetched_core _ _ _ _
      · exact ⟨rfl, rfl⟩
    · exact processFetched_core _ _ _ _

/-- C2: along every crawl execution, the number of in-flight fetch tasks never
exceeds the configured concurrency (a dispatch requires
`activeCrawlers < maxConcurrency` and a completion only decrements); and a
`start` command without a positive `concurrency` value leaves the worker's
bound at the default 5. -/
theorem activeCrawlers_bounded (env : CrawlEnv) (s0 s : CrawlState)
    (h0 : s0.activeCrawlers ≤ env.maxConcurrency) (hr : Reachable env s0 s) :
    s.activeCrawlers ≤ env.maxConcurrency ∧
    ∀ c : Option Int, (∀ n : Int, c = some n → n ≤ 0) →
      startMaxConcurrency defaultMaxConcurrency c = 5 := by
  constructor
  · induction hr with
    | refl => exact h0
    | tail _ hstep ih =>
        cases hstep with
        | dispatch u rest hq hlt =>
            simp only [dispatchState]
            omega
        | complete u hu =>
            simp only [completeState]
            rw [(processUrl_core env u _).1]
            dsimp only
            omega
  · intro c hc
    match c with
    | none => rfl
    | some n =>
        have hn := hc n rfl
        simp only [startMaxConcurrency]
        rw [if_neg]
        · rfl
        · rintro ⟨h1, h2⟩
          omega

/-- Witness for C2 at a concrete input: the freshly reset worker state under
`idleEnv`, reachable from itself in zero steps. -/
theorem activeCrawlers_bounded_witness :
    initialCrawlState.activeCrawlers ≤ idleEnv.maxConcurrency ∧
    ∀ c : Option Int, (∀ n : Int, c = some n → n ≤ 0) →
      startMaxConcurrency defaultMaxConcurrency c = 5 :=
  activeCrawlers_bounded idleEnv initialCrawlState initialCrawlState (by decide)
    Relation.ReflTransGen.refl

/-- C1 (failing-input evaluation): with P = ScannedUrls = {a} and
D = AllDestinationUrls = {a, b}, the resumed session's initial frontier is all
of D — the membership test in the resume loop checks only the queue, not the
previously-scanned set, contradicting both the claim (frontier = D − P = {b})
and the source's own comment that only not-yet-processed URLs are queued — and
the crawl loop then actually re-fetches the already persisted URL `a`: after
the first dispatch/completion, `a` is in the ghost log of fetched URLs. -/
theorem resume_frontier_not_diff :
    ex1start.urlsToCrawl = ["https://x.test/a", "https://x.test/b"] ∧
    getScannedUrls (some ex1db) = ["https://x.test/a"] ∧
    getAllDestinationUrls (some ex1db) = ["https://x.test/a", "https://x.test/b"] ∧
    Step idleEnv ex1start
      (dispatchState ex1start "https://x.test/a" ["https://x.test/b"]) ∧
    "https://x.test/a" ∈
      (completeState idleEnv "https://x.test/a"
        (dispatchState ex1start "https://x.test/a" ["https://x.test/b"])).fetched := by
  refine ⟨by decide, by decide, by decide, ?_, by decide⟩
  exact Step.dispatch ex1start "https://x.test/a" ["https://x.test/b"] (by decide) (by decide)

/-- C8 (failing-input evaluation): on a 50-page domain with exactly 10
`HTML_PAGE` rows, the query with `contentType=HTML_PAGE` returns all 50 rows —
`getAllPagesData` ignores the `searchQuery`/`contentType` options its caller
passes — including rows of other content types, while the claim says exactly
10 rows.  The descending `responseTime` sort itself does hold (response times
are non-increasing). -/
theorem getAllPages_ignores_filter :
    (getAllPagesData (some ex8db) ex8opts).pages.length = 50 ∧
    (getAllPagesData (some ex8db) ex8opts).total = 50 ∧
    ((getAllPagesData (some ex8db) ex8opts).pages.filter
      (fun v => v.row.contentType == "HTML_PAGE")).length = 10 ∧
    (∃ v ∈ (getAllPagesData (some ex8db) ex8opts).pages, v.row.contentType ≠ "HTML_PAGE") ∧
    (getAllPagesData (some ex8db) ex8opts).pages.Pairwise
      (fun a b => b.row.responseTime ≤ a.row.responseTime) := by
  refine ⟨by decide, by decide, by decide, by decide, by decide⟩

/-- Adding a fresh member of `U` to the crawled set increments the
crawled-members count. -/
theorem card_filter_mem_cons (U : Finset String) (v : String) (c : List String)
    (hvU : v ∈ U) (hvc : v ∉ c) :
    (U.filter (fun x => x ∈ v :: c)).card = (U.filter (fun x => x ∈ c)).card + 1 := by
  have hset : U.filter (fun x => x ∈ v :: c) = insert v (U.filter (fun x => x ∈ c)) := by
    ext x
    simp only [Finset.mem_filter, List.mem_cons, Finset.mem_insert]
    constructor
    · rintro ⟨hxU, hx | hx⟩
      · exact Or.inl hx
      · exact Or.inr ⟨hxU, hx⟩
    · rintro (hx | ⟨hxU, hx⟩)
      · exact ⟨hx ▸ hvU, Or.inl hx⟩
      · exact ⟨hxU, Or.inr hx⟩
  rw [hset, Finset.card_insert_of_not_mem (by simp [hvc])]

/-- The crawled-members count never exceeds the universe size. -/
theorem card_filter_mem_le (U : Finset String) (c : List String) :
    (U.filter (fun x => x ∈ c)).card ≤ U.card :=
  Finset.card_filter_le U (fun x => x ∈ c)

/-- `discover` of a universe member preserves the queue/crawled measure. -/
theorem discover_measure (U : Finset String) (v : String) (s : CrawlState) (hvU : v ∈ U) :
    queueCrawlMeasure U (discover v s) = queueCrawlMeasure U s := by
  unfold discover
  split
  · rfl
  · next h =>
      push_neg at h
      unfold queueCrawlMeasure
      dsimp only
      rw [card_filter_mem_cons U v s.crawledUrls hvU h.1, List.length_append]
      have hle : (U.filter (fun x => x ∈ v :: s.crawledUrls)).card ≤ U.card :=
        card_filter_mem_le U _
      rw [card_filter_mem_cons U v s.crawledUrls hvU h.1] at hle
      simp only [List.length_cons, List.length_nil]
      omega

/-- The redirect push (guarded only by the crawled set) of a universe member
preserves the queue/crawled measure. -/
theorem push_redirect_measure (U : Finset String) (v : String) (s : CrawlState)
    (hvU : v ∈ U) (hvc : v ∉ s.crawledUrls) :
    queueCrawlMeasure U
      { s with crawledUrls := v :: s.crawledUrls,
               urlsToCrawl := s.urlsToCrawl ++ [v],
               totalUrlsFound := s.totalUrlsFound + 1 } =
    queueCrawlMeasure U s := by
  unfold queueCrawlMeasure
  dsimp only
  rw [card_filter_mem_cons U v s.crawledUrls hvU hvc, List.length_append]
  have hle : (U.filter (fun x => x ∈ v :: s.crawledUrls)).card ≤ U.card :=
    card_filter_mem_le U _
  rw [card_filter_mem_cons U v s.crawledUrls hvU hvc] at hle
  simp only [List.length_cons, List.length_nil]
  omega

/-- Anchor processing preserves the queue/crawled measure when its target (if
any) lies in the universe. -/
theorem processAnchor_measure (env : CrawlEnv) (dom base : String) (pid : Nat)
    (s : CrawlState) (hrefAttr : Option String) (U : Finset String)
    (hT : ∀ v, anchorTarget env base hrefAttr = some v → v ∈ U) :
    queueCrawlMeasure U (processAnchor env dom base pid s hrefAttr) =
      queueCrawlMeasure U s := by
  unfold processAnchor
  split
  · next abs habs =>
      split
      · split
        · rw [discover_measure U abs _ (hT abs habs)]
          rfl
        · rfl
      · rfl
  · rfl

/-- Folding anchor processing preserves the queue/crawled measure when every
anchor's target lies in the universe. -/
theorem foldAnchors_measure (env : CrawlEnv) (dom base : String) (pid : Nat)
    (l : List (Option String)) (s : CrawlState) (U : Finset String)
    (hT : ∀ a ∈ l, ∀ v, anchorTarget env base a = some v → v ∈ U) :
    queueCrawlMeasure U (l.foldl (processAnchor env dom base pid) s) =
      queueCrawlMeasure U s := by
  induction l generalizing s with
  | nil => rfl
  | cons a t ih =>
      rw [List.foldl_cons,
        ih (processAnchor env dom base pid s a)
          (fun b hb => hT b (List.mem_cons_of_mem a hb)),
        processAnchor_measure env dom base pid s a U (hT a (List.mem_cons_self a t))]

/-- Redirect handling preserves the queue/crawled measure when the final URL
lies in the universe. -/
theorem recordRedirect_measure (env : CrawlEnv) (u : String) (s : CrawlState)
    (U : Finset String)
    (hfin : (fetchPage u (env.fetch u) (env.elapsed u)).finalUrl ∈ U) :
    queueCrawlMeasure U (recordRedirect env u s) = queueCrawlMeasure U s := by
  simp only [recordRedirect]
  split
  · next h => exact push_redirect_measure U _ s hfin h.2
  · rfl

/-- HTML persistence preserves the queue/crawled measure when every anchor
target lies in the universe. -/
theorem persistHtml_measure (env : CrawlEnv) (dom u html : String) (s : CrawlState)
    (U : Finset String)
    (hT : ∀ a ∈ (env.parse html).anchors, ∀ v,
        anchorTarget env (fetchPage u (env.fetch u) (env.elapsed u)).finalUrl a = some v →
        v ∈ U) :
    queueCrawlMeasure U (persistHtml env dom u html s) = queueCrawlMeasure U s := by
  unfold persistHtml
  rw [foldAnchors_measure env dom _ _ _ _ U hT]
  rfl

/-- The fetch-and-process body preserves the queue/crawled measure when every
URL it can push lies in the universe. -/
theorem processFetched_measure (env : CrawlEnv) (dom u : String) (s : CrawlState)
    (U : Finset String) (hT : ∀ v ∈ linkTargets env u, v ∈ U) :
    queueCrawlMeasure U (processFetched env dom u s) = queueCrawlMeasure U s := by
  have hfin : (fetchPage u (env.fetch u) (env.elapsed u)).finalUrl ∈ U :=
    hT _ (List.mem_cons_self _ _)
  simp only [processFetched]
  split
  · next html hhtml =>
      refine (persistHtml_measure env dom u html _ U ?_).trans
        ((recordRedirect_measure env u _ U hfin).trans rfl)
      intro a ha v hv
      apply hT
      refine List.mem_cons_of_mem _ ?_
      simp only [linkTargets, hhtml]
      exact List.mem_filterMap.mpr ⟨a, ha, hv⟩
  · exact (recordRedirect_measure env u _ U hfin).trans rfl

/-- The per-URL task preserves the queue/crawled measure when every URL it can
push lies in the universe. -/
theorem processUrl_measure (env : CrawlEnv) (u : String) (s : CrawlState)
    (U : Finset String) (hT : ∀ v ∈ linkTargets env u, v ∈ U) :
    queueCrawlMeasure U (processUrl env u s) = queueCrawlMeasure U s := by
  unfold processUrl
  split
  · rfl
  · split
    · split
      · exact processFetched_measure env _ u s U hT
      · rfl
    · exact processFetched_measure env _ u s U hT

/-- Queue extension of `discover`: an element of the new queue was already
queued or is the discovered URL itself. -/
theorem discover_queue_sub (v : String) (s : CrawlState) (x : String)
    (hx : x ∈ (discover v s).urlsToCrawl) : x ∈ s.urlsToCrawl ∨ x = v := by
  unfold discover at hx
  split at hx
  · exact Or.inl hx
  · rcases List.mem_append.mp hx with h | h
    · exact Or.inl h
    · exact Or.inr (List.mem_singleton.mp h)

/-- Queue extension of anchor processing. -/
theorem processAnchor_queue_sub (env : CrawlEnv) (dom base : String) (pid : Nat)
    (s : CrawlState) (hrefAttr : Option String) (x : String)
    (hx : x ∈ (processAnchor env dom base pid s hrefAttr).urlsToCrawl) :
    x ∈ s.urlsToCrawl ∨ anchorTarget env base hrefAttr = some x := by
  unfold processAnchor at hx
  split at hx
  · next abs habs =>
      split at hx
      · split at hx
        · rcases discover_queue_sub abs _ x hx with h | h
          · exact Or.inl h
          · exact Or.inr (h ▸ habs)
        · exact Or.inl hx
      · exact Or.inl hx
  · exact Or.inl hx

/-- Queue extension of the anchor-processing fold. -/
theorem foldAnchors_queue_sub (env : CrawlEnv) (dom base : String) (pid : Nat)
    (l : List (Option String)) (s : CrawlState) (x : String)
    (hx : x ∈ (l.foldl (processAnchor env dom base pid) s).urlsToCrawl) :
    x ∈ s.urlsToCrawl ∨ ∃ a ∈ l, anchorTarget env base a = some x := by
  induction l generalizing s with
  | nil => exact Or.inl hx
  | cons a t ih =>
      rw [List.foldl_cons] at hx
      rcases ih (processAnchor env dom base pid s a) hx with h | ⟨b, hb, hbt⟩
      · rcases processAnchor_queue_sub env dom base pid s a x h with h2 | h2
        · exact Or.inl h2
        · exact Or.inr ⟨a, List.mem_cons_self a t, h2⟩
      · exact Or.inr ⟨b, List.mem_cons_of_mem a hb, hbt⟩

/-- Queue extension of redirect handling. -/
theorem recordRedirect_queue_sub (env : CrawlEnv) (u : String) (s : CrawlState) (x : String)
    (hx : x ∈ (recordRedirect env u s).urlsToCrawl) :
    x ∈ s.urlsToCrawl ∨ x = (fetchPage u (env.fetch u) (env.elapsed u)).finalUrl := by
  simp only [recordRedirect] at hx
  split at hx
  · rcases List.mem_append.mp hx with h | h
    · exact Or.inl h
    · exact Or.inr (List.mem_singleton.mp h)
  · exact Or.inl hx

/-- Queue extension of the whole per-URL task: every newly queued URL is one of
the task's possible link targets. -/
theorem processUrl_queue_sub (env : CrawlEnv) (u : String) (s : CrawlState) (x : String)
    (hx : x ∈ (processUrl env u s).urlsToCrawl) :
    x ∈ s.urlsToCrawl ∨ x ∈ linkTargets env u := by
  unfold processUrl at hx
  split at hx
  · exact Or.inl hx
  · next dom hdom =>
      have main : x ∈ (processFetched env dom u s).urlsToCrawl →
          x ∈ s.urlsToCrawl ∨ x ∈ linkTargets env u := by
        intro hx2
        simp only [processFetched] at hx2
        have redir : x ∈ (recordRedirect env u { s with fetched := s.fetched ++ [u] }).urlsToCrawl →
            x ∈ s.urlsToCrawl ∨ x ∈ linkTargets env u := by
          intro h3
          rcases recordRedirect_queue_sub env u _ x h3 with h4 | h4
          · exact Or.inl h4
          · right
            simp only [linkTargets, h4]
            exact List.mem_cons_self _ _
        split at hx2
        · next html hhtml =>
            unfold persistHtml at hx2
            rcases foldAnchors_queue_sub env _ _ _ _ _ x hx2 with h3 | ⟨a, ha, hat⟩
            · exact redir h3
            · right
              simp only [linkTargets, hhtml]
              exact List.mem_cons_of_mem _ (List.mem_filterMap.mpr ⟨a, ha, hat⟩)
        · exact redir hx2
      split at hx
      · split at hx
        · exact main hx
        · exact Or.inl hx
      · exact main hx

/-- A crawl step preserves the termination invariant, provided the universe is
closed under link targets. -/
theorem step_good (env : CrawlEnv) (U : Finset String) (s t : CrawlState)
    (hC : ∀ u ∈ U, ∀ v ∈ linkTargets env u, v ∈ U)
    (hG : GoodState U s) (hstep : Step env s t) : GoodState U t := by
  obtain ⟨hq, hfl, hact⟩ := hG
  cases hstep with
  | dispatch u rest hqe hlt =>
      refine ⟨?_, ?_, ?_⟩
      · intro v hv
        exact hq v (by rw [hqe]; exact List.mem_cons_of_mem u hv)
      · intro v hv
        rcases List.mem_cons.mp hv with h | h
        · exact hq v (by rw [hqe, h]; exact List.mem_cons_self u rest)
        · exact hfl v h
      · simp only [dispatchState, List.length_cons]
        omega
  | complete u hu =>
      have huU : u ∈ U := hfl u hu
      refine ⟨?_, ?_, ?_⟩
      · intro v hv
        simp only [completeState] at hv
        rcases processUrl_queue_sub env u _ v hv with h | h
        · exact hq v h
        · exact hC u huU v h
      · intro v hv
        simp only [completeState] at hv
        rw [(processUrl_core env u _).2] at hv
        exact hfl v (List.erase_subset _ _ hv)
      · simp only [completeState]
        rw [(processUrl_core env u _).1, (processUrl_core env u _).2]
        dsimp only
        rw [List.length_erase_of_mem hu]
        omega

/-- A crawl step strictly decreases the termination measure. -/
theorem step_measure_lt (env : CrawlEnv) (U : Finset String) (s t : CrawlState)
    (hC : ∀ u ∈ U, ∀ v ∈ linkTargets env u, v ∈ U)
    (hG : GoodState U s) (hstep : Step env s t) :
    frontierMeasure U t < frontierMeasure U s := by
  obtain ⟨hq, hfl, hact⟩ := hG
  cases hstep with
  | dispatch u rest hqe hlt =>
      have huU : u ∈ U := hq u (by rw [hqe]; exact List.mem_cons_self u rest)
      unfold frontierMeasure queueCrawlMeasure
      simp only [dispatchState]
      rw [hqe]
      simp only [List.length_cons]
      by_cases hc : u ∈ s.crawledUrls
      · simp only [if_pos hc]
        omega
      · simp only [if_neg hc]
        rw [card_filter_mem_cons U u s.crawledUrls huU hc]
        have hle : (U.filter (fun x => x ∈ u :: s.crawledUrls)).card ≤ U.card :=
          card_filter_mem_le U _
        rw [card_filter_mem_cons U u s.crawledUrls huU hc] at hle
        omega
  | complete u hu =>
      have huU : u ∈ U := hfl u hu
      have hqcm : queueCrawlMeasure U (completeState env u s) = queueCrawlMeasure U s := by
        simp only [completeState]
        have h1 : queueCrawlMeasure U
            (processUrl env u { s with inFlight := s.inFlight.erase u }) =
            queueCrawlMeasure U { s with inFlight := s.inFlight.erase u } :=
          processUrl_measure env u _ U (hC u huU)
        exact h1.trans rfl
      have hactive : (completeState env u s).activeCrawlers = s.activeCrawlers - 1 := by
        simp only [completeState]
        rw [(processUrl_core env u _).1]
      have hpos : 0 < s.activeCrawlers := by
        rw [hact]
        exact List.length_pos.mpr (List.ne_nil_of_mem hu)
      unfold frontierMeasure
      rw [hqcm, hactive]
      omega

/-- Along a crawl execution the invariant holds everywhere. -/
theorem run_good (env : CrawlEnv) (U : Finset String) (f : ℕ → CrawlState)
    (hC : ∀ u ∈ U, ∀ v ∈ linkTargets env u, v ∈ U)
    (hG : GoodState U (f 0)) (hstep : ∀ n, Step env (f n) (f (n + 1))) :
    ∀ n, GoodState U (f n) := by
  intro n
  induction n with
  | zero => exact hG
  | succ k ih => exact step_good env U (f k) (f (k + 1)) hC ih (hstep k)

/-- The invariant also propagates along reachability. -/
theorem reachable_good (env : CrawlEnv) (U : Finset String) (s0 s : CrawlState)
    (hC : ∀ u ∈ U, ∀ v ∈ linkTargets env u, v ∈ U)
    (hG : GoodState U s0) (hr : Reachable env s0 s) : GoodState U s := by
  induction hr with
  | refl => exact hG
  | tail _ hstep ih => exact step_good env U _ _ hC ih hstep

/-- A state from which no step is possible has an empty queue and no active
crawler, provided the concurrency bound is positive. -/
theorem stuck_state (env : CrawlEnv) (U : Finset String) (s : CrawlState)
    (hmax : 0 < env.maxConcurrency) (hG : GoodState U s)
    (hstuck : ∀ t, ¬ Step env s t) :
    s.urlsToCrawl = [] ∧ s.activeCrawlers = 0 := by
  obtain ⟨hq, hfl, hact⟩ := hG
  have hflight : s.activeCrawlers ≠ 0 → False := by
    intro h
    have hlen : 0 < s.inFlight.length := by omega
    cases hfe : s.inFlight with
    | nil => rw [hfe] at hlen; simp at hlen
    | cons w tl =>
        exact hstuck _ (Step.complete s w (by rw [hfe]; exact List.mem_cons_self w tl))
  constructor
  · cases hqe : s.urlsToCrawl with
    | nil => rfl
    | cons u rest =>
        by_cases hlt : s.activeCrawlers < env.maxConcurrency
        · exact absurd (Step.dispatch s u rest hqe hlt) (hstuck _)
        · exact absurd (hflight (by omega)) id
  · by_contra h
    exact hflight h

/-- C3: over any finite link universe `U` closed under the crawler's link
targets, the crawl loop terminates: (i) there is no infinite sequence of
dispatch/completion steps from a state whose queued and in-flight URLs lie in
`U`, and (ii) any reachable state from which no further step is possible has
both an empty pending queue and an active-crawler count of zero — the loop
condition `urlsToCrawl.length > 0 || activeCrawlers > 0` is then false and the
loop exits. -/
theorem crawl_terminates (env : CrawlEnv) (U : Finset String) (s0 : CrawlState)
    (hmax : 0 < env.maxConcurrency)
    (hC : ∀ u ∈ U, ∀ v ∈ linkTargets env u, v ∈ U)
    (hG : GoodState U s0) :
    (¬ ∃ f : ℕ → CrawlState, f 0 = s0 ∧ ∀ n, Step env (f n) (f (n + 1))) ∧
    ∀ s, Reachable env s0 s → (∀ t, ¬ Step env s t) →
      s.urlsToCrawl = [] ∧ s.activeCrawlers = 0 := by
  constructor
  · rintro ⟨f, hf0, hstep⟩
    have hgood : ∀ n, GoodState U (f n) :=
      run_good env U f hC (hf0 ▸ hG) hstep
    have hdec : ∀ n, frontierMeasure U (f (n + 1)) < frontierMeasure U (f n) :=
      fun n => step_measure_lt env U (f n) (f (n + 1)) hC (hgood n) (hstep n)
    have hbound : ∀ n, frontierMeasure U (f n) + n ≤ frontierMeasure U (f 0) := by
      intro n
      induction n with
      | zero => omega
      | succ k ih =>
          have := hdec k
          omega
    have := hbound (frontierMeasure U (f 0) + 1)
    omega
  · intro s hr hstuck
    exact stuck_state env U s hmax (reachable_good env U s0 s hC hG hr) hstuck

/-- Witness for C3 at a concrete input: the empty universe and the freshly
reset worker state under `idleEnv`. -/
theorem crawl_terminates_witness :
    (¬ ∃ f : ℕ → CrawlState, f 0 = initialCrawlState ∧
        ∀ n, Step idleEnv (f n) (f (n + 1))) ∧
    ∀ s, Reachable idleEnv initialCrawlState s → (∀ t, ¬ Step idleEnv s t) →
      s.urlsToCrawl = [] ∧ s.activeCrawlers = 0 :=
  crawl_terminates idleEnv ∅ initialCrawlState (by decide)
    (by intro u hu; simp at hu)
    ⟨by intro v hv; simp [initialCrawlState] at hv,
     by intro v hv; simp [initialCrawlState] at hv, rfl⟩

/-- C4 amended: every URL dequeued by the crawl loop that robots.txt disallows
is recorded as a Page with `contentType = DISALLOWED` and `responseStatus = 0`
(and `responseTime = 0`) and is never fetched (the ghost fetch log does not
grow); the original claim's extension to URLs reached as redirect targets is
false — see the counterexample — because the robots check is applied only to
the dequeued URL, not to the final URL of a redirect. -/
theorem disallowed_dequeued_recorded (env : CrawlEnv) (u : String) (s : CrawlState)
    (allow : String → Bool) (hrob : env.robots = some allow) (hdis : allow u = false)
    (d : String) (hhost : env.urls.hostname u = some d) :
    processUrl env u s =
      { s with db := (savePageData s.db u (some "Disallowed by robots.txt") none
          "DISALLOWED" 0 0).1 } ∧
    (processUrl env u s).fetched = s.fetched ∧
    (u ∉ s.db.pages.map (·.url) →
      ∃ r ∈ (processUrl env u s).db.pages,
        r.url = u ∧ r.contentType = "DISALLOWED" ∧
        r.responseStatus = 0 ∧ r.responseTime = 0) := by
  have hbranch : processUrl env u s =
      { s with db := (savePageData s.db u (some "Disallowed by robots.txt") none
          "DISALLOWED" 0 0).1 } := by
    unfold processUrl
    rw [hhost, hrob]
    simp only [hdis, Bool.false_eq_true, if_false]
  refine ⟨hbranch, ?_, ?_⟩
  · rw [hbranch]
  · intro hnot
    rw [hbranch]
    have hfind : s.db.pages.find? (fun p => p.url == u) = none := by
      rw [List.find?_eq_none]
      intro p hp
      simp only [beq_iff_eq]
      intro h
      exact hnot (h ▸ List.mem_map_of_mem (fun r => r.url) hp)
    refine ⟨{ id := s.db.nextId, url := u,
              metaTitle := some "Disallowed by robots.txt", metaDescription := none,
              contentType := "DISALLOWED", responseStatus := 0, responseTime := 0 },
            ?_, rfl, rfl, rfl, rfl⟩
    simp only [savePageData, hfind]
    exact List.mem_append_right _ (List.mem_singleton_self _)

/-- Witness for C4's amended theorem at a concrete input: the disallowed URL
`A/x` dequeued under `ex4env` from the fresh state. -/
theorem disallowed_dequeued_recorded_witness :
    processUrl ex4env "A/x" initialCrawlState =
      { initialCrawlState with db := (savePageData initialCrawlState.db "A/x"
          (some "Disallowed by robots.txt") none "DISALLOWED" 0 0).1 } ∧
    (processUrl ex4env "A/x" initialCrawlState).fetched = initialCrawlState.fetched ∧
    ("A/x" ∉ initialCrawlState.db.pages.map (·.url) →
      ∃ r ∈ (processUrl ex4env "A/x" initialCrawlState).db.pages,
        r.url = "A/x" ∧ r.contentType = "DISALLOWED" ∧
        r.responseStatus = 0 ∧ r.responseTime = 0) :=
  disallowed_dequeued_recorded ex4env "A/x" initialCrawlState ex4allow rfl
    (by decide) "A" (by decide)

/-- C4 counterexample: the crawl legally dispatches and completes the allowed
URL `A/r`, whose fetch redirects to the robots-disallowed URL `A/x`; the store
then holds a Page row for `A/x` with `contentType = HTML_PAGE` — a URL
disallowed by robots.txt appears with a non-DISALLOWED contentType, refuting
the claim's parenthetical about redirect targets. -/
theorem disallowed_redirect_target_html :
    Step ex4env ex4s0 (dispatchState ex4s0 "A/r" []) ∧
    Step ex4env (dispatchState ex4s0 "A/r" [])
      (completeState ex4env "A/r" (dispatchState ex4s0 "A/r" [])) ∧
    ex4allow "A/x" = false ∧
    (∃ r ∈ (completeState ex4env "A/r" (dispatchState ex4s0 "A/r" [])).db.pages,
       r.url = "A/x" ∧ r.contentType = "HTML_PAGE") := by
  refine ⟨Step.dispatch ex4s0 "A/r" [] (by decide) (by decide),
          Step.complete _ "A/r" (by decide), by decide, by decide⟩

/-- A row of the saved pages is an old row or carries the saved url. -/
theorem savePageData_pages_sub (db : SiteDb) (url : String)
    (t d : Option String) (ct : String) (rs rt : Int) (r : PageRow)
    (hr : r ∈ (savePageData db url t d ct rs rt).1.pages) :
    r ∈ db.pages ∨ r.url = url := by
  unfold savePageData at hr
  split at hr
  · exact Or.inl hr
  · rcases List.mem_append.mp hr with h | h
    · exact Or.inl h
    · exact Or.inr (by rw [List.mem_singleton.mp h])

/-- `saveOutgoingLink` leaves the pages table unchanged. -/
theorem saveOutgoingLink_pages (db : SiteDb) (pid : Nat) (dest : String) :
    (saveOutgoingLink db pid dest).pages = db.pages := by
  unfold saveOutgoingLink
  split <;> rfl

/-- Saving headings leaves the pages table unchanged. -/
theorem foldHeaders_pages (l : List (Nat × String)) (db : SiteDb) (pid : Nat) :
    (l.foldl (fun d h => saveHeader d pid h.1 h.2) db).pages = db.pages := by
  induction l generalizing db with
  | nil => rfl
  | cons a t ih =>
      rw [List.foldl_cons, ih]
      rfl

/-- Anchor processing preserves hostname scoping of the queue and the pages. -/
theorem processAnchor_scoped (env : CrawlEnv) (dom base : String) (pid : Nat)
    (s : CrawlState) (hrefAttr : Option String)
    (hq : ∀ v ∈ s.urlsToCrawl, env.urls.hostname v = some dom)
    (hp : ∀ r ∈ s.db.pages, env.urls.hostname r.url = some dom) :
    (∀ v ∈ (processAnchor env dom base pid s hrefAttr).urlsToCrawl,
        env.urls.hostname v = some dom) ∧
    (∀ r ∈ (processAnchor env dom base pid s hrefAttr).db.pages,
        env.urls.hostname r.url = some dom) := by
  unfold processAnchor
  split
  · next abs habs =>
      split
      · next h hh =>
          split
          · next heq =>
              constructor
              · intro v hv
                rcases discover_queue_sub abs _ v hv with h2 | h2
                · exact hq v h2
                · rw [h2, hh, heq]
              · intro r hr
                have hdb : (discover abs { s with db := saveOutgoingLink s.db pid abs }).db =
                    saveOutgoingLink s.db pid abs := by
                  unfold discover
                  split <;> rfl
                rw [hdb, saveOutgoingLink_pages] at hr
                exact hp r hr
          · exact ⟨hq, hp⟩
      · exact ⟨hq, hp⟩
  · exact ⟨hq, hp⟩

/-- The anchor fold preserves hostname scoping of the queue and the pages. -/
theorem foldAnchors_scoped (env : CrawlEnv) (dom base : String) (pid : Nat)
    (l : List (Option String)) (s : CrawlState)
    (hq : ∀ v ∈ s.urlsToCrawl, env.urls.hostname v = some dom)
    (hp : ∀ r ∈ s.db.pages, env.urls.hostname r.url = some dom) :
    (∀ v ∈ (l.foldl (processAnchor env dom base pid) s).urlsToCrawl,
        env.urls.hostname v = some dom) ∧
    (∀ r ∈ (l.foldl (processAnchor env dom base pid) s).db.pages,
        env.urls.hostname r.url = some dom) := by
  induction l generalizing s with
  | nil => exact ⟨hq, hp⟩
  | cons a t ih =>
      rw [List.foldl_cons]
      have h1 := processAnchor_scoped env dom base pid s a hq hp
      exact ih _ h1.1 h1.2

/-- When the fetch of `u` does not redirect, redirect handling is a no-op. -/
theorem recordRedirect_noop (env : CrawlEnv) (u : String) (s : CrawlState)
    (hnru : (fetchPage u (env.fetch u) (env.elapsed u)).finalUrl = u) :
    recordRedirect env u s = s := by
  simp only [recordRedirect]
  rw [if_neg]
  rintro ⟨h1, h2⟩
  exact h1 hnru

/-- HTML persistence preserves hostname scoping when the fetch of `u` did not
redirect and `u` has the scoped hostname. -/
theorem persistHtml_scoped (env : CrawlEnv) (dom u html : String) (s : CrawlState)
    (hnru : (fetchPage u (env.fetch u) (env.elapsed u)).finalUrl = u)
    (hu : env.urls.hostname u = some dom)
    (hq : ∀ v ∈ s.urlsToCrawl, env.urls.hostname v = some dom)
    (hp : ∀ r ∈ s.db.pages, env.urls.hostname r.url = some dom) :
    (∀ v ∈ (persistHtml env dom u html s).urlsToCrawl,
        env.urls.hostname v = some dom) ∧
    (∀ r ∈ (persistHtml env dom u html s).db.pages,
        env.urls.hostname r.url = some dom) := by
  unfold persistHtml
  apply foldAnchors_scoped
  · exact hq
  · intro r hr
    rw [foldHeaders_pages] at hr
    rcases savePageData_pages_sub _ _ _ _ _ _ _ r hr with h | h
    · exact hp r h
    · rw [h, hnru]
      exact hu

/-- The fetch-and-process body preserves hostname scoping when the fetch of
`u` did not redirect. -/
theorem processFetched_scoped (env : CrawlEnv) (dom u : String) (s : CrawlState)
    (hnru : (fetchPage u (env.fetch u) (env.elapsed u)).finalUrl = u)
    (hu : env.urls.hostname u = some dom)
    (hq : ∀ v ∈ s.urlsToCrawl, env.urls.hostname v = some dom)
    (hp : ∀ r ∈ s.db.pages, env.urls.hostname r.url = some dom) :
    (∀ v ∈ (processFetched env dom u s).urlsToCrawl,
        env.urls.hostname v = some dom) ∧
    (∀ r ∈ (processFetched env dom u s).db.pages,
        env.urls.hostname r.url = some dom) := by
  simp only [processFetched]
  rw [recordRedirect_noop env u _ hnru]
  split
  · exact persistHtml_scoped env dom u _ _ hnru hu hq hp
  · constructor
    · exact hq
    · intro r hr
      rcases savePageData_pages_sub _ _ _ _ _ _ _ r hr with h | h
      · exact hp r h
      · rw [h, hnru]
        exact hu

/-- The per-URL task preserves hostname scoping when the fetch of `u` did not
redirect and `u` has the scoped hostname. -/
theorem processUrl_scoped (env : CrawlEnv) (dom u : String) (s : CrawlState)
    (hnru : (fetchPage u (env.fetch u) (env.elapsed u)).finalUrl = u)
    (hu : env.urls.hostname u = some dom)
    (hq : ∀ v ∈ s.urlsToCrawl, env.urls.hostname v = some dom)
    (hp : ∀ r ∈ s.db.pages, env.urls.hostname r.url = some dom) :
    (∀ v ∈ (processUrl env u s).urlsToCrawl, env.urls.hostname v = some dom) ∧
    (∀ r ∈ (processUrl env u s).db.pages, env.urls.hostname r.url = some dom) := by
  unfold processUrl
  rw [hu]
  split
  · rename_i heq
    simp at heq
  · rename_i d2 heq
    have hd2 : dom = d2 := by injection heq
    subst hd2
    split
    · split
      · exact processFetched_scoped env dom u s hnru hu hq hp
      · constructor
        · exact hq
        · intro r hr
          rcases savePageData_pages_sub _ _ _ _ _ _ _ r hr with h | h
          · exact hp r h
          · rw [h]
            exact hu
    · exact processFetched_scoped env dom u s hnru hu hq hp

/-- A crawl step preserves hostname scoping when no fetch redirects. -/
theorem step_scoped (env : CrawlEnv) (D : String) (s t : CrawlState)
    (hnr : ∀ v, (fetchPage v (env.fetch v) (env.elapsed v)).finalUrl = v)
    (hS : HostScoped env.urls D s) (hstep : Step env s t) :
    HostScoped env.urls D t := by
  obtain ⟨hq, hfl, hp⟩ := hS
  cases hstep with
  | dispatch u rest hqe hlt =>
      refine ⟨?_, ?_, ?_⟩
      · intro v hv
        exact hq v (by rw [hqe]; exact List.mem_cons_of_mem u hv)
      · intro v hv
        rcases List.mem_cons.mp hv with h | h
        · exact h ▸ hq u (by rw [hqe]; exact List.mem_cons_self u rest)
        · exact hfl v h
      · intro r hr
        exact hp r hr
  | complete u hu =>
      have huD := hfl u hu
      have h2 := processUrl_scoped env D u { s with inFlight := s.inFlight.erase u }
        (hnr u) huD hq hp
      refine ⟨?_, ?_, ?_⟩
      · intro v hv
        exact h2.1 v hv
      · intro v hv
        simp only [completeState] at hv
        rw [(processUrl_core env u _).2] at hv
        exact hfl v (List.erase_subset _ _ hv)
      · intro r hr
        exact h2.2 r hr

/-- C5 amended: domain scoping holds for every Page row produced by link
discovery, and in any session whose fetches never redirect, no Page row's URL
ever has a hostname different from the seed hostname `D`; but a fetch that
redirects to a different host produces a Page row with a foreign hostname —
see the counterexample. -/
theorem domain_scoped_without_redirects (env : CrawlEnv) (D : String)
    (s0 s : CrawlState)
    (hnr : ∀ v, (fetchPage v (env.fetch v) (env.elapsed v)).finalUrl = v)
    (h0 : HostScoped env.urls D s0) (hr : Reachable env s0 s) :
    ∀ r ∈ s.db.pages, env.urls.hostname r.url = some D := by
  have hS : HostScoped env.urls D s := by
    induction hr with
    | refl => exact h0
    | tail _ hstep ih => exact step_scoped env D _ _ hnr ih hstep
  exact hS.2.2

/-- Witness for C5's amended theorem at a concrete input: a two-step run under
`idleEnv` (no redirects) from a queue holding `A/` stores the 404 row for `A/`,
and that row's URL carries the seed hostname `A`. -/
theorem domain_scoped_without_redirects_witness :
    idleEnv.urls.hostname
      ({ id := 1, url := "A/", metaTitle := none, metaDescription := none,
         contentType := "NON_HTML_OR_ERROR", responseStatus := 404,
         responseTime := 0 } : PageRow).url = some "A" :=
  domain_scoped_without_redirects idleEnv "A" ex5w0
    (completeState idleEnv "A/" (dispatchState ex5w0 "A/" []))
    (fun v => rfl) ⟨by decide, by decide, by decide⟩
    (Relation.ReflTransGen.tail
      (Relation.ReflTransGen.single (Step.dispatch ex5w0 "A/" [] (by decide) (by decide)))
      (Step.complete _ "A/" (by decide)))
    { id := 1, url := "A/", metaTitle := none, metaDescription := none,
      contentType := "NON_HTML_OR_ERROR", responseStatus := 404, responseTime := 0 }
    (by decide)

/-- C5 counterexample: the crawl legally dispatches and completes `A/r` (seed
hostname `A`); its fetch redirects to `B/`, and the store then holds a Page
row whose URL has hostname `B` ≠ `A` — refuting the claim that no Page row's
URL ever has a hostname different from the seed domain. -/
theorem cross_host_redirect_page_row :
    Step ex5env ex5s0 (dispatchState ex5s0 "A/r" []) ∧
    Step ex5env (dispatchState ex5s0 "A/r" [])
      (completeState ex5env "A/r" (dispatchState ex5s0 "A/r" [])) ∧
    ex5env.urls.hostname "A/r" = some "A" ∧
    (∃ r ∈ (completeState ex5env "A/r" (dispatchState ex5s0 "A/r" [])).db.pages,
       ex5env.urls.hostname r.url = some "B" ∧ r.contentType = "HTML_PAGE") := by
  refine ⟨Step.dispatch ex5s0 "A/r" [] (by decide) (by decide),
          Step.complete _ "A/r" (by decide), by decide, by decide⟩
